import Mathlib

/-!
# WiSecAnalyzer — shallow embedding of `wisec_analyzer/core.py`

This file embeds the event-classification and time-binned aggregation engine
of `wisec_analyzer` (`core.py`, functions `_analyze_events`, `analyze_directory`)
and proves the specification claims about it.

Embedding conventions:
* Python floats (packet timestamps, bin widths) are modelled as rationals `ℚ`;
  `int(x)` is truncation toward zero (`truncInt`).
* A packet either carries a parseable timestamp, lacks the `time` attribute
  (then `getattr(pkt, "time", 0.0)` yields `0.0`), or carries a value that
  `float(...)` rejects with a `ValueError`; the three cases are `TimeField`.
* Python exceptions are modelled with `Except`: `float(...)` failure is
  `AnalysisError.valueError`, float division by zero is
  `AnalysisError.zeroDivision`, and `rdpcap` failure on a trace is
  `ReadError.unreadable`.
* `collections.Counter` keyed by insertion order is an association list in
  first-occurrence order (`bumpTally`); the Python `dict` of buckets is an
  association list in insertion order (`bumpBucket`).
* Python's stable sorts (`list.sort(key=...)` and `Counter.most_common`, which
  orders equal counts in first-encountered order) are `List.insertionSort`
  with the corresponding total preorder, which is stable in the same way.
* The ISO-8601 rendering of bucket start times (`datetime.utcfromtimestamp`)
  and the `"mac(count)"` string formatting of top sources are pure formatting
  of the fields kept here and are not modelled; `Bin.topSources` holds the
  `most_common(3)` pairs that the code formats.  The extra field `Bin.tally`
  is a ghost field recording the bucket's full per-source counter (the code
  drops it after formatting); it lets the theorems speak about the tally a
  finalized bucket was built from.
-/

namespace WiSec

/-- The `time` field of a captured packet: a parseable epoch timestamp, a
missing attribute (Python substitutes `0.0`), or a value `float(...)` rejects. -/
inductive TimeField where
  | present (t : ℚ)
  | missing
  | malformed
deriving DecidableEq, Repr

/-- A decoded packet as `_analyze_events` observes it: timestamp field,
presence of a `Dot11` layer with its type/subtype and optional `addr2`
source MAC, and presence of an `EAPOL` layer. -/
structure Packet where
  time : TimeField
  hasDot11 : Bool
  dot11Type : ℕ
  dot11Subtype : ℕ
  addr2 : Option String
  hasEapol : Bool
deriving DecidableEq, Repr

/-- Exceptions `_analyze_events` can raise: `ValueError` from `float(...)` on
a malformed timestamp, `ZeroDivisionError` from `(ts - start_time) / bin_size`
with `bin_size == 0`. -/
inductive AnalysisError where
  | valueError
  | zeroDivision
deriving DecidableEq, Repr

/-- `float(getattr(pkt, "time", 0.0))`: a present value parses to itself, a
missing attribute parses to `0`, a malformed value raises `ValueError`. -/
def pktTime : TimeField → Except AnalysisError ℚ
  | .present t => .ok t
  | .missing => .ok 0
  | .malformed => .error .valueError

/-- The effective timestamp of a packet whose `time` field `float(...)`
accepts (missing attribute ↦ `0.0`). -/
def effTs (p : Packet) : ℚ :=
  match p.time with
  | .present t => t
  | _ => 0

/-- `src_mac` as the loop extracts it: `addr2` when a `Dot11` layer is
present, otherwise `None`. -/
def pktSrc (p : Packet) : Option String :=
  if p.hasDot11 then p.addr2 else none

/-- Python truthiness of the optional source MAC (`if src_mac:`):
`None` and the empty string are falsy. -/
def truthy : Option String → Bool
  | none => false
  | some s => !s.isEmpty

/-- The list (empty or singleton) appended to `event_srcs` for one event:
the source MAC when it is truthy, nothing otherwise. -/
def srcList : Option String → List String
  | none => []
  | some s => if s.isEmpty then [] else [s]

/-- `d11.type == 0 and d11.subtype == 12` (management deauthentication). -/
def isDeauthFrame (p : Packet) : Bool :=
  p.hasDot11 && p.dot11Type == 0 && p.dot11Subtype == 12

/-- `d11.type == 0 and d11.subtype == 10` (management disassociation). -/
def isDisassocFrame (p : Packet) : Bool :=
  p.hasDot11 && p.dot11Type == 0 && p.dot11Subtype == 10

/-- The running state of the classification loop of `_analyze_events`. -/
structure ScanState where
  totalDeauth : ℕ
  totalDisassoc : ℕ
  totalEapol : ℕ
  eventTimes : List ℚ
  eventSrcs : List String
  startTime : Option ℚ
  endTime : Option ℚ
deriving DecidableEq, Repr

/-- The state before the loop: zero totals, empty event lists, no
`start_time`/`end_time`. -/
def initScan : ScanState :=
  { totalDeauth := 0, totalDisassoc := 0, totalEapol := 0,
    eventTimes := [], eventSrcs := [], startTime := none, endTime := none }

/-- One iteration of the classification loop body on a packet whose
timestamp parsed to `ts`: update `start_time`/`end_time`, then the deauth,
disassoc and EAPOL checks in the order the code performs them.  Each firing
check appends `ts` to `event_times` and, only when the source MAC is truthy,
the source to `event_srcs`. -/
def stepPacket (s : ScanState) (p : Packet) (ts : ℚ) : ScanState :=
  let s1 : ScanState :=
    { s with startTime := some (s.startTime.getD ts), endTime := some ts }
  let src := pktSrc p
  let s2 : ScanState :=
    if isDeauthFrame p then
      { s1 with totalDeauth := s1.totalDeauth + 1,
                eventTimes := s1.eventTimes ++ [ts],
                eventSrcs := s1.eventSrcs ++ srcList src }
    else s1
  let s3 : ScanState :=
    if isDisassocFrame p then
      { s2 with totalDisassoc := s2.totalDisassoc + 1,
                eventTimes := s2.eventTimes ++ [ts],
                eventSrcs := s2.eventSrcs ++ srcList src }
    else s2
  if p.hasEapol then
    { s3 with totalEapol := s3.totalEapol + 1,
              eventTimes := s3.eventTimes ++ [ts],
              eventSrcs := s3.eventSrcs ++ srcList src }
  else s3

/-- The classification loop: `float(...)` is evaluated first and a malformed
timestamp raises before the packet is otherwise processed. -/
def scanPackets : ScanState → List Packet → Except AnalysisError ScanState
  | s, [] => .ok s
  | s, p :: ps =>
    match pktTime p.time with
    | .error e => .error e
    | .ok ts => scanPackets (stepPacket s p ts) ps

/-- Python `int(...)` on a float: truncation toward zero. -/
def truncInt (q : ℚ) : ℤ :=
  if q < 0 then ⌈q⌉ else ⌊q⌋

/-- `idx = int((ts - start_time) / bin_size)`. -/
def binIdx (startTime binSize ts : ℚ) : ℤ :=
  truncInt ((ts - startTime) / binSize)

/-- `t_epoch = start_time + idx * bin_size`: the start of the bucket the
event at `ts` is assigned to. -/
def bucketStart (startTime binSize ts : ℚ) : ℚ :=
  startTime + (binIdx startTime binSize ts : ℚ) * binSize

/-- `Counter` increment: bump an existing key in place (keys keep their
first-occurrence position) or append a fresh key with count 1. -/
def bumpTally : List (String × ℕ) → String → List (String × ℕ)
  | [], src => [(src, 1)]
  | (k, c) :: rest, src =>
    if k = src then (k, c + 1) :: rest else (k, c) :: bumpTally rest src

/-- One iteration of the aggregation loop on the bucket map
(`bin_counters[idx][0] += 1; if src: bin_counters[idx][1][src] += 1`),
creating the bucket on first touch; new buckets are appended, matching the
insertion order of a Python `dict`. -/
def bumpBucket : List (ℤ × ℕ × List (String × ℕ)) → ℤ → String →
    List (ℤ × ℕ × List (String × ℕ))
  | [], idx, src => [(idx, 1, if src.isEmpty then [] else [(src, 1)])]
  | (i, c, t) :: rest, idx, src =>
    if i = idx then
      (i, c + 1, if src.isEmpty then t else bumpTally t src) :: rest
    else
      (i, c, t) :: bumpBucket rest idx src

/-- The aggregation loop `for ts, src in zip(event_times, event_srcs)`:
each pair divides by `bin_size` (raising `ZeroDivisionError` when it is
zero) and bumps the bucket at `binIdx`. -/
def aggregatePairs (startTime binSize : ℚ) :
    List (ℤ × ℕ × List (String × ℕ)) → List (ℚ × String) →
    Except AnalysisError (List (ℤ × ℕ × List (String × ℕ)))
  | m, [] => .ok m
  | m, (ts, src) :: rest =>
    if binSize = 0 then .error .zeroDivision
    else aggregatePairs startTime binSize
      (bumpBucket m (binIdx startTime binSize ts) src) rest

/-- Descending-by-count preorder used by `Counter.most_common`. -/
def countGE (x y : String × ℕ) : Prop := y.2 ≤ x.2

instance : DecidableRel countGE := fun x y =>
  inferInstanceAs (Decidable (y.2 ≤ x.2))

instance : IsTotal (String × ℕ) countGE := ⟨fun a b => Nat.le_total b.2 a.2⟩

instance : IsTrans (String × ℕ) countGE :=
  ⟨fun _ _ _ h1 h2 => Nat.le_trans h2 h1⟩

/-- `Counter.most_common(n)`: the tally sorted stably descending by count
(equal counts stay in first-occurrence order, as documented for `Counter`),
truncated to `n` entries.  `List.insertionSort` is stable in exactly this
sense. -/
def mostCommonN (n : ℕ) (t : List (String × ℕ)) : List (String × ℕ) :=
  (t.insertionSort countGE).take n

/-- One finalized output bin.  The code emits the tuple
`(t_iso, t_epoch, count, unique_srcs, top, alert)`; `t_iso` and the textual
rendering of `top` are pure formatting and are omitted, and `tally` is a
ghost field recording the bucket's per-source counter. -/
structure Bin where
  tEpoch : ℚ
  count : ℕ
  uniqueSrcs : ℕ
  topSources : List (String × ℕ)
  alert : Bool
  tally : List (String × ℕ)
deriving DecidableEq, Repr

/-- Finalization of one bucket-map entry into a bin:
`unique_srcs = len(src_counter)`, `top = most_common(3)` (empty counter
gives an empty list), `alert = count >= threshold`. -/
def mkBin (startTime binSize : ℚ) (threshold : ℤ)
    (e : ℤ × ℕ × List (String × ℕ)) : Bin :=
  { tEpoch := startTime + (e.1 : ℚ) * binSize
    count := e.2.1
    uniqueSrcs := e.2.2.length
    topSources := mostCommonN 3 e.2.2
    alert := decide (threshold ≤ (e.2.1 : ℤ))
    tally := e.2.2 }

/-- Ascending order on bins by epoch start (`bins.sort(key=lambda x: x[1])`). -/
def binLE (a b : Bin) : Prop := a.tEpoch ≤ b.tEpoch

instance : DecidableRel binLE := fun a b =>
  inferInstanceAs (Decidable (a.tEpoch ≤ b.tEpoch))

instance : IsTotal Bin binLE := ⟨fun a b => le_total a.tEpoch b.tEpoch⟩

instance : IsTrans Bin binLE := ⟨fun _ _ _ h1 h2 => le_trans h1 h2⟩

/-- `bins.sort(key=lambda x: x[1])`: Python's stable sort by `t_epoch`. -/
def sortBins (bs : List Bin) : List Bin := bs.insertionSort binLE

/-- The statistics dictionary `_analyze_events` returns. -/
structure Stats where
  duration : ℚ
  totalPackets : ℕ
  totalDeauth : ℕ
  totalDisassoc : ℕ
  totalEapol : ℕ
  bins : List Bin
  alerts : List Bin
  startTime : Option ℚ
  endTime : Option ℚ
deriving DecidableEq, Repr

/-- `_analyze_events(packets, bin_size, threshold)`: classification loop,
the two degenerate early returns (no packets; no interesting events),
aggregation of the zipped event/source lists, bin finalization, sort by
time, and the alert filter. -/
def analyzeEvents (packets : List Packet) (binSize : ℚ) (threshold : ℤ) :
    Except AnalysisError Stats :=
  match scanPackets initScan packets with
  | .error e => .error e
  | .ok s =>
    match s.startTime, s.endTime with
    | some st, some en =>
      if s.eventTimes.isEmpty then
        .ok { duration := en - st, totalPackets := packets.length,
              totalDeauth := s.totalDeauth, totalDisassoc := s.totalDisassoc,
              totalEapol := s.totalEapol, bins := [], alerts := [],
              startTime := some st, endTime := some en }
      else
        match aggregatePairs st binSize [] (s.eventTimes.zip s.eventSrcs) with
        | .error e => .error e
        | .ok m =>
          let bins := sortBins (m.map (mkBin st binSize threshold))
          .ok { duration := en - st, totalPackets := packets.length,
                totalDeauth := s.totalDeauth, totalDisassoc := s.totalDisassoc,
                totalEapol := s.totalEapol, bins := bins,
                alerts := bins.filter (fun b => b.alert),
                startTime := some st, endTime := some en }
    | _, _ =>
      .ok { duration := 0, totalPackets := packets.length,
            totalDeauth := s.totalDeauth, totalDisassoc := s.totalDisassoc,
            totalEapol := s.totalEapol, bins := [], alerts := [],
            startTime := none, endTime := none }

/-- `Attack detected: {bool(stats['alerts'])}` in `_write_report`. -/
def attackDetected (s : Stats) : Bool := !s.alerts.isEmpty

/-- Failure of the decoder collaborator (`rdpcap` raising on an unreadable
trace). -/
inductive ReadError where
  | unreadable
deriving DecidableEq, Repr

/-- An error aborting `analyze_directory`: an unreadable trace or an
exception escaping `_analyze_events`. -/
inductive BatchError where
  | read (e : ReadError)
  | analysis (e : AnalysisError)
deriving DecidableEq, Repr

/-- `analyze_directory`'s loop over the discovered traces, each already
resolved by the decoder to packets or a read failure.  The Python loop has
no exception handling, so the first failing trace propagates and aborts the
whole batch; traces after it are never analyzed and no batch-level result
exists (per-trace artifact writes are side effects outside this model). -/
def analyzeDirectory (traces : List (Except ReadError (List Packet)))
    (binSize : ℚ) (threshold : ℤ) : Except BatchError (List Stats) :=
  match traces with
  | [] => .ok []
  | t :: rest =>
    match t with
    | .error e => .error (.read e)
    | .ok packets =>
      match analyzeEvents packets binSize threshold with
      | .error e => .error (.analysis e)
      | .ok s =>
        match analyzeDirectory rest binSize threshold with
        | .error e => .error e
        | .ok tail => .ok (s :: tail)

deriving instance DecidableEq for Except

/-- Sum of the per-source tally values of one bucket. -/
def tallySum (t : List (String × ℕ)) : ℕ := (t.map (fun p => p.2)).sum

/-- Structural well-formedness of one bucket-map entry `(idx, count, tally)`:
all tallied counts are positive, tally keys are distinct, the tally total is
bounded by the bucket count, and the bucket count is positive. -/
def EntryWf : ℤ × ℕ × List (String × ℕ) → Prop
  | (_, c, t) =>
    (∀ p ∈ t, 1 ≤ p.2) ∧ (t.map Prod.fst).Nodup ∧ tallySum t ≤ c ∧ 1 ≤ c

/-- Exact count/tally agreement of one bucket-map entry. -/
def EntryEq : ℤ × ℕ × List (String × ℕ) → Prop
  | (_, c, t) => c = tallySum t

/-- Total event count over a bucket map. -/
def aggSum (m : List (ℤ × ℕ × List (String × ℕ))) : ℕ :=
  (m.map (fun e => e.2.1)).sum

/-- A frame contributing to any of the three event checks. -/
def eventFrame (p : Packet) : Bool :=
  isDeauthFrame p || isDisassocFrame p || p.hasEapol

/-- A deauthentication frame at time `t` from the optional source `src`
(concrete test frame). -/
def deauthPkt (t : ℚ) (src : Option String) : Packet :=
  { time := .present t, hasDot11 := true, dot11Type := 0, dot11Subtype := 12,
    addr2 := src, hasEapol := false }

/-- A frame at time `t` matching none of the three event checks
(concrete test frame). -/
def plainPkt (t : ℚ) : Packet :=
  { time := .present t, hasDot11 := false, dot11Type := 0, dot11Subtype := 0,
    addr2 := none, hasEapol := false }

/-- A deauthentication frame whose `time` value `float(...)` rejects
(concrete test frame). -/
def badTimePkt : Packet :=
  { time := .malformed, hasDot11 := true, dot11Type := 0, dot11Subtype := 12,
    addr2 := some "aa:aa:aa:aa:aa:aa", hasEapol := false }

/-- A deauthentication frame missing its `time` attribute
(concrete test frame). -/
def noTimePkt : Packet :=
  { time := .missing, hasDot11 := true, dot11Type := 0, dot11Subtype := 12,
    addr2 := some "aa:aa:aa:aa:aa:aa", hasEapol := false }

end WiSec

namespace WiSec

/-! ### Properties of `mostCommonN` -/

theorem mostCommonN_length_le (n : ℕ) (t : List (String × ℕ)) :
    (mostCommonN n t).length ≤ n :=
  List.length_take_le n _

theorem mostCommonN_pairwise (n : ℕ) (t : List (String × ℕ)) :
    List.Pairwise countGE (mostCommonN n t) :=
  List.Pairwise.sublist (List.take_sublist n _) (List.sorted_insertionSort countGE t)

theorem mostCommonN_subset {n : ℕ} {t : List (String × ℕ)} {p : String × ℕ}
    (hp : p ∈ mostCommonN n t) : p ∈ t :=
  (List.mem_insertionSort countGE).mp ((List.take_sublist n _).subset hp)

/-- Stability of the `most_common` sort: restricted to any one count value,
the sorted tally is exactly the tally in first-occurrence order. -/
theorem insertionSort_filter_count (t : List (String × ℕ)) (c : ℕ) :
    (t.insertionSort countGE).filter (fun p => p.2 == c) =
      t.filter (fun p => p.2 == c) := by
  have hpw : List.Pairwise countGE (t.filter (fun p => p.2 == c)) := by
    refine List.pairwise_of_forall_mem_list (fun a ha b hb => ?_)
    have ha' := (List.mem_filter.mp ha).2
    have hb' := (List.mem_filter.mp hb).2
    simp only [beq_iff_eq] at ha' hb'
    show b.2 ≤ a.2
    omega
  have hsub : (t.filter (fun p => p.2 == c)).Sublist (t.insertionSort countGE) :=
    List.sublist_insertionSort hpw (List.filter_sublist t)
  have hsub2 : (t.filter (fun p => p.2 == c)).Sublist
      ((t.insertionSort countGE).filter (fun p => p.2 == c)) := by
    have h := hsub.filter (fun p => p.2 == c)
    rwa [List.filter_filter, show (fun a : String × ℕ =>
      (a.2 == c) && (a.2 == c)) = (fun a : String × ℕ => a.2 == c) by
        funext a; exact Bool.and_self _] at h
  have hlen : ((t.insertionSort countGE).filter (fun p => p.2 == c)).length =
      (t.filter (fun p => p.2 == c)).length :=
    ((List.perm_insertionSort countGE t).filter _).length_eq
  exact (hsub2.eq_of_length hlen.symm).symm

theorem mostCommonN_filter_count (n : ℕ) (t : List (String × ℕ)) (c : ℕ) :
    ((mostCommonN n t).filter (fun p => p.2 == c)).Sublist
      (t.filter (fun p => p.2 == c)) := by
  have h := (List.take_sublist n (t.insertionSort countGE)).filter
    (fun p => p.2 == c)
  rwa [insertionSort_filter_count] at h

/-! ### Properties of the per-source tally -/

theorem tallySum_cons (p : String × ℕ) (t : List (String × ℕ)) :
    tallySum (p :: t) = p.2 + tallySum t := by
  simp [tallySum]

theorem tallySum_bumpTally (t : List (String × ℕ)) (src : String) :
    tallySum (bumpTally t src) = tallySum t + 1 := by
  induction t with
  | nil => simp [bumpTally, tallySum]
  | cons p rest ih =>
    obtain ⟨k, c⟩ := p
    by_cases h : k = src
    · simp only [bumpTally, if_pos h, tallySum_cons]
      omega
    · simp only [bumpTally, if_neg h, tallySum_cons]
      omega

theorem bumpTally_pos {t : List (String × ℕ)} (h : ∀ p ∈ t, 1 ≤ p.2)
    (src : String) : ∀ p ∈ bumpTally t src, 1 ≤ p.2 := by
  induction t with
  | nil =>
    intro p hp
    simp only [bumpTally, List.mem_singleton] at hp
    simp [hp]
  | cons q rest ih =>
    obtain ⟨k, c⟩ := q
    intro p hp
    by_cases hk : k = src
    · simp only [bumpTally, if_pos hk, List.mem_cons] at hp
      rcases hp with hp | hp
      · simp [hp]
      · exact h p (List.mem_cons_of_mem _ hp)
    · simp only [bumpTally, if_neg hk, List.mem_cons] at hp
      rcases hp with hp | hp
      · exact hp ▸ h (k, c) (List.mem_cons_self _ _)
      · exact ih (fun q hq => h q (List.mem_cons_of_mem _ hq)) p hp

theorem bumpTally_keys_mem {t : List (String × ℕ)} {src a : String}
    (ha : a ∈ (bumpTally t src).map Prod.fst) :
    a ∈ t.map Prod.fst ∨ a = src := by
  induction t with
  | nil =>
    simp only [bumpTally, List.map_cons, List.map_nil, List.mem_singleton] at ha
    exact Or.inr ha
  | cons q rest ih =>
    obtain ⟨k, c⟩ := q
    by_cases hk : k = src
    · simp only [bumpTally, if_pos hk, List.map_cons, List.mem_cons] at ha ⊢
      tauto
    · simp only [bumpTally, if_neg hk, List.map_cons, List.mem_cons] at ha ⊢
      tauto

theorem bumpTally_keys_nodup {t : List (String × ℕ)}
    (h : (t.map Prod.fst).Nodup) (src : String) :
    ((bumpTally t src).map Prod.fst).Nodup := by
  induction t with
  | nil => simp [bumpTally]
  | cons q rest ih =>
    obtain ⟨k, c⟩ := q
    simp only [List.map_cons, List.nodup_cons] at h
    by_cases hk : k = src
    · simp only [bumpTally, if_pos hk, List.map_cons, List.nodup_cons]
      exact ⟨h.1, h.2⟩
    · simp only [bumpTally, if_neg hk, List.map_cons, List.nodup_cons]
      refine ⟨fun hmem => ?_, ih h.2⟩
      rcases bumpTally_keys_mem hmem with hmem | hmem
      · exact h.1 hmem
      · exact hk hmem

theorem length_le_tallySum {t : List (String × ℕ)} (h : ∀ p ∈ t, 1 ≤ p.2) :
    t.length ≤ tallySum t := by
  induction t with
  | nil => simp [tallySum]
  | cons p rest ih =>
    rw [tallySum_cons]
    have h1 := h p (List.mem_cons_self _ _)
    have h2 := ih (fun q hq => h q (List.mem_cons_of_mem _ hq))
    simp only [List.length_cons]
    omega

end WiSec

namespace WiSec

/-! ### Invariants of the bucket map -/

theorem bumpBucket_wf {m : List (ℤ × ℕ × List (String × ℕ))}
    (h : ∀ e ∈ m, EntryWf e) (idx : ℤ) (src : String) :
    ∀ e ∈ bumpBucket m idx src, EntryWf e := by
  induction m with
  | nil =>
    intro e he
    simp only [bumpBucket, List.mem_singleton] at he
    subst he
    by_cases hs : src.isEmpty
    · rw [if_pos hs]
      exact ⟨by simp, by simp, by simp [tallySum], le_refl 1⟩
    · rw [if_neg hs]
      exact ⟨by simp, by simp, by simp [tallySum], le_refl 1⟩
  | cons q rest ih =>
    obtain ⟨i, c, t⟩ := q
    intro e he
    by_cases hi : i = idx
    · simp only [bumpBucket, if_pos hi, List.mem_cons] at he
      rcases he with he | he
      · subst he
        obtain ⟨hpos, hnd, hsum, hcnt⟩ := h (i, c, t) (List.mem_cons_self _ _)
        by_cases hs : src.isEmpty
        · rw [if_pos hs]
          exact ⟨hpos, hnd, by omega, by omega⟩
        · rw [if_neg hs]
          refine ⟨bumpTally_pos hpos src, bumpTally_keys_nodup hnd src, ?_, ?_⟩
          · show tallySum (bumpTally t src) ≤ c + 1
            rw [tallySum_bumpTally]
            omega
          · omega
      · exact h e (List.mem_cons_of_mem _ he)
    · simp only [bumpBucket, if_neg hi, List.mem_cons] at he
      rcases he with he | he
      · exact he ▸ h (i, c, t) (List.mem_cons_self _ _)
      · exact ih (fun q hq => h q (List.mem_cons_of_mem _ hq)) e he

theorem aggregatePairs_wf {startTime binSize : ℚ}
    {ps : List (ℚ × String)} {m m' : List (ℤ × ℕ × List (String × ℕ))}
    (hagg : aggregatePairs startTime binSize m ps = .ok m')
    (h : ∀ e ∈ m, EntryWf e) : ∀ e ∈ m', EntryWf e := by
  induction ps generalizing m with
  | nil =>
    simp only [aggregatePairs] at hagg
    cases hagg
    exact h
  | cons p rest ih =>
    obtain ⟨ts, src⟩ := p
    simp only [aggregatePairs] at hagg
    by_cases hz : binSize = 0
    · rw [if_pos hz] at hagg
      cases hagg
    · rw [if_neg hz] at hagg
      exact ih hagg (bumpBucket_wf h _ _)

theorem bumpBucket_eq {m : List (ℤ × ℕ × List (String × ℕ))}
    (h : ∀ e ∈ m, EntryEq e) {src : String} (hs : src.isEmpty = false)
    (idx : ℤ) : ∀ e ∈ bumpBucket m idx src, EntryEq e := by
  have hs' : ¬src.isEmpty = true := by simp [hs]
  induction m with
  | nil =>
    intro e he
    simp only [bumpBucket, List.mem_singleton] at he
    subst he
    rw [if_neg hs']
    show (1 : ℕ) = tallySum [(src, 1)]
    simp [tallySum]
  | cons q rest ih =>
    obtain ⟨i, c, t⟩ := q
    intro e he
    by_cases hi : i = idx
    · simp only [bumpBucket, if_pos hi, List.mem_cons] at he
      rcases he with he | he
      · subst he
        have hq := h (i, c, t) (List.mem_cons_self _ _)
        rw [if_neg hs']
        show c + 1 = tallySum (bumpTally t src)
        rw [tallySum_bumpTally]
        have : c = tallySum t := hq
        omega
      · exact h e (List.mem_cons_of_mem _ he)
    · simp only [bumpBucket, if_neg hi, List.mem_cons] at he
      rcases he with he | he
      · exact he ▸ h (i, c, t) (List.mem_cons_self _ _)
      · exact ih (fun q hq => h q (List.mem_cons_of_mem _ hq)) e he

theorem aggregatePairs_eq {startTime binSize : ℚ}
    {ps : List (ℚ × String)} {m m' : List (ℤ × ℕ × List (String × ℕ))}
    (hagg : aggregatePairs startTime binSize m ps = .ok m')
    (hps : ∀ p ∈ ps, (p.2 : String).isEmpty = false)
    (h : ∀ e ∈ m, EntryEq e) : ∀ e ∈ m', EntryEq e := by
  induction ps generalizing m with
  | nil =>
    simp only [aggregatePairs] at hagg
    cases hagg
    exact h
  | cons p rest ih =>
    obtain ⟨ts, src⟩ := p
    simp only [aggregatePairs] at hagg
    by_cases hz : binSize = 0
    · rw [if_pos hz] at hagg
      cases hagg
    · rw [if_neg hz] at hagg
      exact ih hagg (fun q hq => hps q (List.mem_cons_of_mem _ hq))
        (bumpBucket_eq h (hps (ts, src) (List.mem_cons_self _ _)) _)

theorem aggSum_bumpBucket (m : List (ℤ × ℕ × List (String × ℕ)))
    (idx : ℤ) (src : String) :
    aggSum (bumpBucket m idx src) = aggSum m + 1 := by
  induction m with
  | nil =>
    by_cases hs : src.isEmpty
    · simp only [bumpBucket, if_pos hs, aggSum, List.map_cons, List.map_nil]
      simp
    · simp only [bumpBucket, if_neg hs, aggSum, List.map_cons, List.map_nil]
      simp
  | cons q rest ih =>
    obtain ⟨i, c, t⟩ := q
    by_cases hi : i = idx
    · simp only [bumpBucket, if_pos hi, aggSum, List.map_cons, List.sum_cons]
      omega
    · simp only [bumpBucket, if_neg hi, aggSum, List.map_cons,
        List.sum_cons] at ih ⊢
      omega

theorem aggregatePairs_aggSum {startTime binSize : ℚ}
    {ps : List (ℚ × String)} {m m' : List (ℤ × ℕ × List (String × ℕ))}
    (hagg : aggregatePairs startTime binSize m ps = .ok m') :
    aggSum m' = aggSum m + ps.length := by
  induction ps generalizing m with
  | nil =>
    simp only [aggregatePairs] at hagg
    cases hagg
    simp
  | cons p rest ih =>
    obtain ⟨ts, src⟩ := p
    simp only [aggregatePairs] at hagg
    by_cases hz : binSize = 0
    · rw [if_pos hz] at hagg
      cases hagg
    · rw [if_neg hz] at hagg
      rw [ih hagg, aggSum_bumpBucket]
      simp only [List.length_cons]
      omega

end WiSec

namespace WiSec

/-! ### Properties of the classification loop -/

theorem pktTime_ok_effTs {p : Packet} {ts : ℚ}
    (h : pktTime p.time = .ok ts) : ts = effTs p := by
  cases htf : p.time with
  | present t =>
    rw [htf] at h
    simp only [pktTime] at h
    injection h with h
    simp [effTs, htf, ← h]
  | missing =>
    rw [htf] at h
    simp only [pktTime] at h
    injection h with h
    simp [effTs, htf, ← h]
  | malformed =>
    rw [htf] at h
    simp only [pktTime] at h
    cases h

theorem pktTime_ok_of_not_malformed {p : Packet} (h : p.time ≠ .malformed) :
    pktTime p.time = .ok (effTs p) := by
  cases htf : p.time with
  | present t => simp [pktTime, effTs, htf]
  | missing => simp [pktTime, effTs, htf]
  | malformed => exact absurd htf h

theorem srcList_nonempty (o : Option String) :
    ∀ x ∈ srcList o, x.isEmpty = false := by
  cases o with
  | none => simp [srcList]
  | some s =>
    by_cases hs : s.isEmpty
    · simp [srcList, hs]
    · simp only [srcList, if_neg hs, List.mem_singleton]
      intro x hx
      subst hx
      simpa using hs

theorem srcList_length_of_truthy {o : Option String} (h : truthy o = true) :
    (srcList o).length = 1 := by
  cases o with
  | none => simp [truthy] at h
  | some s =>
    simp only [truthy, Bool.not_eq_true'] at h
    simp [srcList, h]

theorem stepPacket_startTime (s : ScanState) (p : Packet) (ts : ℚ) :
    (stepPacket s p ts).startTime = some (s.startTime.getD ts) := by
  simp only [stepPacket]
  split_ifs <;> rfl

theorem stepPacket_endTime (s : ScanState) (p : Packet) (ts : ℚ) :
    (stepPacket s p ts).endTime = some ts := by
  simp only [stepPacket]
  split_ifs <;> rfl

theorem stepPacket_totalDeauth (s : ScanState) (p : Packet) (ts : ℚ) :
    (stepPacket s p ts).totalDeauth
      = s.totalDeauth + (if isDeauthFrame p then 1 else 0) := by
  simp only [stepPacket]
  split_ifs <;> rfl

theorem stepPacket_totalDisassoc (s : ScanState) (p : Packet) (ts : ℚ) :
    (stepPacket s p ts).totalDisassoc
      = s.totalDisassoc + (if isDisassocFrame p then 1 else 0) := by
  simp only [stepPacket]
  split_ifs <;> rfl

theorem stepPacket_totalEapol (s : ScanState) (p : Packet) (ts : ℚ) :
    (stepPacket s p ts).totalEapol
      = s.totalEapol + (if p.hasEapol then 1 else 0) := by
  simp only [stepPacket]
  split_ifs <;> rfl

theorem stepPacket_eventTimes_length (s : ScanState) (p : Packet) (ts : ℚ) :
    (stepPacket s p ts).eventTimes.length
      = s.eventTimes.length + ((if isDeauthFrame p then 1 else 0)
          + (if isDisassocFrame p then 1 else 0)
          + (if p.hasEapol then 1 else 0)) := by
  simp only [stepPacket]
  split_ifs <;> simp [List.length_append]

theorem stepPacket_eventSrcs_length (s : ScanState) (p : Packet) (ts : ℚ) :
    (stepPacket s p ts).eventSrcs.length
      = s.eventSrcs.length + ((if isDeauthFrame p then 1 else 0)
          + (if isDisassocFrame p then 1 else 0)
          + (if p.hasEapol then 1 else 0)) * (srcList (pktSrc p)).length := by
  simp only [stepPacket]
  split_ifs <;> simp [List.length_append] <;> omega

theorem stepPacket_eventSrcs_mem {s : ScanState} {p : Packet} {ts : ℚ}
    {x : String} (hx : x ∈ (stepPacket s p ts).eventSrcs) :
    x ∈ s.eventSrcs ∨ x ∈ srcList (pktSrc p) := by
  simp only [stepPacket] at hx
  split_ifs at hx <;> simp only [List.mem_append] at hx <;> tauto

theorem scan_srcs_nonempty {s s' : ScanState} {ps : List Packet}
    (h : scanPackets s ps = .ok s')
    (hinv : ∀ x ∈ s.eventSrcs, x.isEmpty = false) :
    ∀ x ∈ s'.eventSrcs, x.isEmpty = false := by
  induction ps generalizing s with
  | nil =>
    simp only [scanPackets] at h
    cases h
    exact hinv
  | cons p rest ih =>
    cases htp : pktTime p.time with
    | error e =>
      simp only [scanPackets, htp] at h
      cases h
    | ok ts =>
      simp only [scanPackets, htp] at h
      refine ih h (fun x hx => ?_)
      rcases stepPacket_eventSrcs_mem hx with hx | hx
      · exact hinv x hx
      · exact srcList_nonempty _ x hx

theorem scan_startTime_some {s s' : ScanState} {ps : List Packet} {a : ℚ}
    (h : scanPackets s ps = .ok s') (ha : s.startTime = some a) :
    s'.startTime = some a := by
  induction ps generalizing s with
  | nil =>
    simp only [scanPackets] at h
    cases h
    exact ha
  | cons p rest ih =>
    cases htp : pktTime p.time with
    | error e =>
      simp only [scanPackets, htp] at h
      cases h
    | ok ts =>
      simp only [scanPackets, htp] at h
      refine ih h ?_
      rw [stepPacket_startTime, ha]
      rfl

theorem scan_startTime_none {s s' : ScanState} {ps : List Packet}
    (h : scanPackets s ps = .ok s') (hn : s'.startTime = none) :
    ps = [] ∧ s' = s := by
  cases ps with
  | nil =>
    simp only [scanPackets] at h
    cases h
    exact ⟨rfl, rfl⟩
  | cons p rest =>
    exfalso
    cases htp : pktTime p.time with
    | error e =>
      simp only [scanPackets, htp] at h
      cases h
    | ok ts =>
      simp only [scanPackets, htp] at h
      have := scan_startTime_some h (a := (s.startTime.getD ts))
        (by rw [stepPacket_startTime])
      rw [this] at hn
      cases hn

theorem scan_startTime_head {s s' : ScanState} {p : Packet} {ps : List Packet}
    (h : scanPackets s (p :: ps) = .ok s') (hn : s.startTime = none) :
    s'.startTime = some (effTs p) := by
  cases htp : pktTime p.time with
  | error e =>
    simp only [scanPackets, htp] at h
    cases h
  | ok ts =>
    simp only [scanPackets, htp] at h
    have hts := pktTime_ok_effTs htp
    subst hts
    exact scan_startTime_some h (by rw [stepPacket_startTime, hn]; rfl)

theorem scan_endTime_getLast {s s' : ScanState} {ps : List Packet} {pl : Packet}
    (h : scanPackets s ps = .ok s') (hl : ps.getLast? = some pl) :
    s'.endTime = some (effTs pl) := by
  induction ps generalizing s with
  | nil => cases hl
  | cons p rest ih =>
    cases htp : pktTime p.time with
    | error e =>
      simp only [scanPackets, htp] at h
      cases h
    | ok ts =>
      simp only [scanPackets, htp] at h
      cases rest with
      | nil =>
        simp only [List.getLast?_singleton, Option.some_inj] at hl
        subst hl
        simp only [scanPackets] at h
        cases h
        rw [stepPacket_endTime]
        rw [pktTime_ok_effTs htp]
      | cons q rest' =>
        have hl' : (q :: rest').getLast? = some pl := by
          rwa [List.getLast?_cons_cons] at hl
        exact ih h hl'

end WiSec

namespace WiSec

theorem scan_totalDeauth {s s' : ScanState} {ps : List Packet}
    (h : scanPackets s ps = .ok s') :
    s'.totalDeauth = s.totalDeauth + (ps.filter isDeauthFrame).length := by
  induction ps generalizing s with
  | nil =>
    simp only [scanPackets] at h
    cases h
    simp
  | cons p rest ih =>
    cases htp : pktTime p.time with
    | error e =>
      simp only [scanPackets, htp] at h
      cases h
    | ok ts =>
      simp only [scanPackets, htp] at h
      rw [ih h, stepPacket_totalDeauth]
      by_cases hd : isDeauthFrame p
      · simp only [List.filter_cons, hd, if_pos, List.length_cons]
        omega
      · simp only [List.filter_cons, hd, Bool.false_eq_true, if_false]
        omega

theorem scan_balanced {s s' : ScanState} {ps : List Packet}
    (h : scanPackets s ps = .ok s')
    (hsrc : ∀ p ∈ ps, eventFrame p = true → truthy (pktSrc p) = true)
    (hb1 : s.eventSrcs.length = s.eventTimes.length)
    (hb2 : s.eventTimes.length
      = s.totalDeauth + s.totalDisassoc + s.totalEapol) :
    s'.eventSrcs.length = s'.eventTimes.length ∧
      s'.eventTimes.length
        = s'.totalDeauth + s'.totalDisassoc + s'.totalEapol := by
  induction ps generalizing s with
  | nil =>
    simp only [scanPackets] at h
    cases h
    exact ⟨hb1, hb2⟩
  | cons p rest ih =>
    cases htp : pktTime p.time with
    | error e =>
      simp only [scanPackets, htp] at h
      cases h
    | ok ts =>
      simp only [scanPackets, htp] at h
      refine ih h (fun q hq => hsrc q (List.mem_cons_of_mem _ hq)) ?_ ?_
      · rw [stepPacket_eventSrcs_length, stepPacket_eventTimes_length]
        by_cases hev : eventFrame p = true
        · rw [srcList_length_of_truthy (hsrc p (List.mem_cons_self _ _) hev)]
          omega
        · simp only [eventFrame, Bool.or_eq_true, not_or,
            Bool.not_eq_true] at hev
          obtain ⟨⟨h1, h2⟩, h3⟩ := hev
          simp [h1, h2, h3, hb1]
      · rw [stepPacket_eventTimes_length, stepPacket_totalDeauth,
          stepPacket_totalDisassoc, stepPacket_totalEapol]
        omega

theorem scan_ok_of_no_malformed {ps : List Packet} (s : ScanState)
    (h : ∀ p ∈ ps, p.time ≠ .malformed) :
    ∃ s', scanPackets s ps = .ok s' := by
  induction ps generalizing s with
  | nil => exact ⟨s, rfl⟩
  | cons p rest ih =>
    have htp := pktTime_ok_of_not_malformed (h p (List.mem_cons_self _ _))
    obtain ⟨s', hs'⟩ :=
      ih (stepPacket s p (effTs p)) (fun q hq => h q (List.mem_cons_of_mem _ hq))
    refine ⟨s', ?_⟩
    simp only [scanPackets, htp]
    exact hs'

theorem scan_error_of_malformed {ps : List Packet}
    (hex : ∃ p ∈ ps, p.time = .malformed) (s : ScanState) :
    scanPackets s ps = .error .valueError := by
  induction ps generalizing s with
  | nil =>
    obtain ⟨p, hp, _⟩ := hex
    cases hp
  | cons p rest ih =>
    by_cases hp : p.time = .malformed
    · simp only [scanPackets, hp, pktTime]
    · obtain ⟨q, hq, hqm⟩ := hex
      have hq' : q ∈ rest := by
        rcases List.mem_cons.mp hq with hq | hq
        · exact absurd (hq ▸ hqm) hp
        · exact hq
      have htp := pktTime_ok_of_not_malformed hp
      simp only [scanPackets, htp]
      exact ih ⟨q, hq', hqm⟩ _

theorem scan_endTime_none {s s' : ScanState} {ps : List Packet}
    (h : scanPackets s ps = .ok s') (hn : s'.endTime = none) :
    ps = [] ∧ s' = s := by
  cases ps with
  | nil =>
    simp only [scanPackets] at h
    cases h
    exact ⟨rfl, rfl⟩
  | cons p rest =>
    exfalso
    have hne : p :: rest ≠ [] := by simp
    have hl := List.getLast?_eq_getLast (p :: rest) hne
    have := scan_endTime_getLast h hl
    rw [this] at hn
    cases hn

theorem aggregatePairs_ok_of_ne_zero {startTime binSize : ℚ}
    (hz : binSize ≠ 0) (m : List (ℤ × ℕ × List (String × ℕ)))
    (ps : List (ℚ × String)) :
    ∃ m', aggregatePairs startTime binSize m ps = .ok m' := by
  induction ps generalizing m with
  | nil => exact ⟨m, rfl⟩
  | cons p rest ih =>
    obtain ⟨ts, src⟩ := p
    obtain ⟨m', hm'⟩ := ih (bumpBucket m (binIdx startTime binSize ts) src)
    refine ⟨m', ?_⟩
    simp only [aggregatePairs, if_neg hz]
    exact hm'

end WiSec

namespace WiSec

/-- Anatomy of a successful `_analyze_events` run: the scan succeeded, the
returned totals and the alert filter come from the scan state, the duration
is `end_time - start_time` (or the degenerate `0` for an empty trace), and
the bins are either empty or the sorted finalization of the aggregated
zipped event/source lists. -/
theorem analyzeEvents_ok_cases {packets : List Packet} {w : ℚ} {thr : ℤ}
    {s : Stats} (h : analyzeEvents packets w thr = .ok s) :
    ∃ st, scanPackets initScan packets = .ok st ∧
      s.totalDeauth = st.totalDeauth ∧
      s.totalDisassoc = st.totalDisassoc ∧
      s.totalEapol = st.totalEapol ∧
      s.totalPackets = packets.length ∧
      s.alerts = s.bins.filter (fun b => b.alert) ∧
      ((packets = [] ∧ s.duration = 0) ∨
        (∃ stt en, st.startTime = some stt ∧ st.endTime = some en ∧
          s.duration = en - stt)) ∧
      ((s.bins = [] ∧ st.eventTimes = []) ∨
        (∃ stt m, st.startTime = some stt ∧
          aggregatePairs stt w [] (st.eventTimes.zip st.eventSrcs) = .ok m ∧
          s.bins = sortBins (m.map (mkBin stt w thr)))) := by
  unfold analyzeEvents at h
  cases hscan : scanPackets initScan packets with
  | error e =>
    rw [hscan] at h
    cases h
  | ok st =>
    simp only [hscan] at h
    refine ⟨st, rfl, ?_⟩
    cases hst : st.startTime with
    | none =>
      obtain ⟨hps, hstinit⟩ := scan_startTime_none hscan hst
      cases hen : st.endTime with
      | none =>
        simp only [hst, hen] at h
        injection h with h
        subst h
        refine ⟨rfl, rfl, rfl, rfl, by simp, Or.inl ⟨hps, rfl⟩,
          Or.inl ⟨rfl, ?_⟩⟩
        rw [hstinit]
        rfl
      | some en =>
        rw [hstinit] at hen
        cases hen
    | some stt =>
      cases hen : st.endTime with
      | none =>
        obtain ⟨hps, hstinit⟩ := scan_endTime_none hscan hen
        rw [hstinit] at hst
        cases hst
      | some en =>
        simp only [hst, hen] at h
        by_cases hempty : st.eventTimes.isEmpty = true
        · rw [if_pos hempty] at h
          injection h with h
          subst h
          refine ⟨rfl, rfl, rfl, rfl, by simp,
            Or.inr ⟨stt, en, rfl, rfl, rfl⟩,
            Or.inl ⟨rfl, List.isEmpty_iff.mp hempty⟩⟩
        · rw [if_neg hempty] at h
          cases hagg : aggregatePairs stt w [] (st.eventTimes.zip st.eventSrcs) with
          | error e =>
            simp only [hagg] at h
            cases h
          | ok m =>
            simp only [hagg] at h
            injection h with h
            subst h
            exact ⟨rfl, rfl, rfl, rfl, rfl,
              Or.inr ⟨stt, en, rfl, rfl, rfl⟩,
              Or.inr ⟨stt, m, rfl, hagg, rfl⟩⟩

end WiSec

namespace WiSec

/-- All entries of the aggregated bucket map built by a successful run carry
nonempty sources in their pairs, because `event_srcs` only ever receives
truthy MACs. -/
theorem analyzeEvents_pairs_nonempty {packets : List Packet}
    {st : ScanState} (hscan : scanPackets initScan packets = .ok st) :
    ∀ p ∈ st.eventTimes.zip st.eventSrcs, (p.2 : String).isEmpty = false := by
  intro p hp
  have hsrcs := scan_srcs_nonempty hscan (by intro x hx; cases hx)
  exact hsrcs p.2 (List.of_mem_zip hp).2

/-- Every bin of a successful `_analyze_events` run is the finalization of a
well-formed bucket entry: its count is the tally total, `unique_srcs` is the
number of distinct tallied sources, `top_sources` is `most_common(3)` of the
tally, the alert flag is the threshold comparison, tallied counts are
positive with distinct keys, and the bin count is at least 1. -/
theorem analyzeEvents_bins_wf {packets : List Packet} {w : ℚ} {thr : ℤ}
    {s : Stats} (h : analyzeEvents packets w thr = .ok s) :
    ∀ b ∈ s.bins,
      b.count = tallySum b.tally ∧
      b.uniqueSrcs = b.tally.length ∧
      b.topSources = mostCommonN 3 b.tally ∧
      b.alert = decide (thr ≤ (b.count : ℤ)) ∧
      (∀ p ∈ b.tally, 1 ≤ p.2) ∧
      (b.tally.map Prod.fst).Nodup ∧
      1 ≤ b.count := by
  obtain ⟨st, hscan, _, _, _, _, _, _, hbins⟩ := analyzeEvents_ok_cases h
  rcases hbins with ⟨hb, _⟩ | ⟨stt, m, _, hagg, hb⟩
  · rw [hb]
    intro b hb'
    cases hb'
  · rw [hb]
    intro b hb'
    simp only [sortBins] at hb'
    have hb2 : b ∈ m.map (mkBin stt w thr) :=
      (List.mem_insertionSort binLE).mp hb'
    obtain ⟨e, he, rfl⟩ := List.mem_map.mp hb2
    have hwf : EntryWf e :=
      aggregatePairs_wf hagg (by intro e' he'; cases he') e he
    have heq : EntryEq e :=
      aggregatePairs_eq hagg (analyzeEvents_pairs_nonempty hscan)
        (by intro e' he'; cases he') e he
    obtain ⟨i, c, t⟩ := e
    obtain ⟨hpos, hnd, hsum, hcnt⟩ := hwf
    exact ⟨heq, rfl, rfl, rfl, hpos, hnd, hcnt⟩

end WiSec

namespace WiSec

theorem except_isOk_exists {ε α : Type} {e : Except ε α}
    (h : e.isOk = true) : ∃ a, e = .ok a := by
  cases e with
  | error x => simp [Except.isOk, Except.toBool] at h
  | ok a => exact ⟨a, rfl⟩

/-- A run whose timestamps all parse succeeds for every nonzero bin width
(negative widths included): the code never validates `bin_size`. -/
theorem analyzeEvents_isOk_of_ne_zero {packets : List Packet} {w : ℚ}
    {thr : ℤ} {st : ScanState}
    (hscan : scanPackets initScan packets = .ok st) (hw : w ≠ 0) :
    (analyzeEvents packets w thr).isOk = true := by
  unfold analyzeEvents
  simp only [hscan]
  split
  · split
    · rfl
    · obtain ⟨m, hm⟩ := aggregatePairs_ok_of_ne_zero hw [] _
      rw [hm]
      rfl
  · rfl

/-- With `bin_size = 0`, the run fails with `ZeroDivisionError` exactly when
the aggregation loop has at least one zipped pair to process. -/
theorem analyzeEvents_zero_width_error {packets : List Packet} {thr : ℤ}
    {st : ScanState} (hscan : scanPackets initScan packets = .ok st)
    (hne : st.eventTimes.zip st.eventSrcs ≠ []) :
    analyzeEvents packets 0 thr = .error .zeroDivision := by
  unfold analyzeEvents
  simp only [hscan]
  split
  case _ stt en hst hen =>
    have hempty : st.eventTimes.isEmpty = false := by
      cases hts : st.eventTimes with
      | nil => exact absurd (by rw [hts]; rfl) hne
      | cons x xs => rfl
    rw [hempty]
    simp only [Bool.false_eq_true, if_false]
    cases hzip : st.eventTimes.zip st.eventSrcs with
    | nil => exact absurd hzip hne
    | cons p rest =>
      obtain ⟨ts, src⟩ := p
      simp [aggregatePairs]
  case _ h1 =>
    exfalso
    cases hst : st.startTime with
    | none =>
      obtain ⟨_, hinit⟩ := scan_startTime_none hscan hst
      apply hne
      rw [hinit]
      rfl
    | some stt =>
      cases hen : st.endTime with
      | none =>
        obtain ⟨_, hinit⟩ := scan_endTime_none hscan hen
        rw [hinit] at hst
        cases hst
      | some en => exact h1 stt en hst hen

/-- With `bin_size = 0` but no zipped pair, aggregation never divides and
the run still succeeds. -/
theorem analyzeEvents_zero_width_ok {packets : List Packet} {thr : ℤ}
    {st : ScanState} (hscan : scanPackets initScan packets = .ok st)
    (hz : st.eventTimes.zip st.eventSrcs = []) :
    (analyzeEvents packets 0 thr).isOk = true := by
  unfold analyzeEvents
  simp only [hscan]
  split
  · split
    · rfl
    · rw [hz]
      rfl
  · rfl

theorem truncInt_eq_floor {q : ℚ} (h : 0 ≤ q) : truncInt q = ⌊q⌋ := by
  rw [truncInt, if_neg (not_lt.mpr h)]

end WiSec

namespace WiSec

/-- **C10**: every bin in the output of the analysis has `count ≥ 1`: a
bucket is created only when an aggregated event lands on its floor and its
count is incremented in that same iteration, so no empty bucket is ever
emitted, even for time ranges inside the trace's duration with no events. -/
theorem C10_bins_nonempty {packets : List Packet} {w : ℚ} {thr : ℤ}
    {s : Stats} (h : analyzeEvents packets w thr = .ok s) :
    ∀ b ∈ s.bins, 1 ≤ b.count := by
  intro b hb
  exact (analyzeEvents_bins_wf h b hb).2.2.2.2.2.2

theorem C10_bins_nonempty_witness :
    1 ≤ (Bin.mk 0 1 1 [("aa", 1)] true [("aa", 1)]).count :=
  @C10_bins_nonempty [deauthPkt 0 (some "aa")] 1 0
    (Stats.mk 0 1 1 0 0
      [Bin.mk 0 1 1 [("aa", 1)] true [("aa", 1)]]
      [Bin.mk 0 1 1 [("aa", 1)] true [("aa", 1)]]
      (some 0) (some 0)) (by with_unfolding_all decide)
    (Bin.mk 0 1 1 [("aa", 1)] true [("aa", 1)])
    (by with_unfolding_all decide)

/-- **C2** (counterexample): the claim's clause "events whose source is
absent … still increment count" is false on the code.  A single deauth
frame with absent source is counted in `total_deauth = 1`, yet the zip of
`event_times` with the empty `event_srcs` is empty, so no bucket is ever
created: the total bucket count is 0, not 1. -/
theorem C2_counterexample :
    analyzeEvents [deauthPkt 0 none] 1 0
        = .ok (Stats.mk 0 1 1 0 0 [] [] (some 0) (some 0)) ∧
      ((Stats.mk 0 1 1 0 0 [] [] (some 0) (some 0)).bins.map
          (fun b => b.count)).sum = 0 ∧
      (Stats.mk 0 1 1 0 0 [] [] (some 0) (some 0)).totalDeauth = 1 :=
  ⟨by with_unfolding_all decide, by with_unfolding_all decide, by with_unfolding_all decide⟩

/-- **C2** (amended): for every bucket produced by the aggregation, `count`
equals the sum of the per-source tally values, `unique_sources` equals the
number of distinct sources tallied in the bucket, and
`unique_sources ≤ count`.  (Events with an absent source do not reliably
increment a bucket's count: their timestamps are re-paired with later
events' sources or dropped by the zip; absent sources never enter any
tally, which is why the per-bucket equality holds unconditionally.) -/
theorem C2_bucket_invariants {packets : List Packet} {w : ℚ} {thr : ℤ}
    {s : Stats} (h : analyzeEvents packets w thr = .ok s) :
    ∀ b ∈ s.bins,
      b.count = tallySum b.tally ∧
      b.uniqueSrcs = b.tally.length ∧
      b.uniqueSrcs ≤ b.count := by
  intro b hb
  obtain ⟨hcnt, huniq, _, _, hpos, _, _⟩ := analyzeEvents_bins_wf h b hb
  refine ⟨hcnt, huniq, ?_⟩
  rw [huniq, hcnt]
  exact length_le_tallySum hpos

theorem C2_bucket_invariants_witness :
    (Bin.mk 0 1 1 [("aa", 1)] true [("aa", 1)]).count
        = tallySum (Bin.mk 0 1 1 [("aa", 1)] true [("aa", 1)]).tally ∧
      (Bin.mk 0 1 1 [("aa", 1)] true [("aa", 1)]).uniqueSrcs
        = (Bin.mk 0 1 1 [("aa", 1)] true [("aa", 1)]).tally.length ∧
      (Bin.mk 0 1 1 [("aa", 1)] true [("aa", 1)]).uniqueSrcs
        ≤ (Bin.mk 0 1 1 [("aa", 1)] true [("aa", 1)]).count :=
  @C2_bucket_invariants [deauthPkt 0 (some "aa")] 1 0
    (Stats.mk 0 1 1 0 0
      [Bin.mk 0 1 1 [("aa", 1)] true [("aa", 1)]]
      [Bin.mk 0 1 1 [("aa", 1)] true [("aa", 1)]]
      (some 0) (some 0)) (by with_unfolding_all decide)
    (Bin.mk 0 1 1 [("aa", 1)] true [("aa", 1)])
    (by with_unfolding_all decide)

/-- **C3**: for every finalized bucket, `top_sources` has length at most 5
(the code keeps `most_common(3)`, hence at most 3 ≤ 5 entries), is sorted
descending by count (`countGE` pairwise, so equal counts appear only
consecutively), ties are broken by first-occurrence order within the bucket
(restricted to any one count value `c`, `top_sources` is an order-preserving
selection from the bucket's tally, which lists sources in first-occurrence
order), and every listed source appears in the bucket's per-source tally
with exactly the listed count. -/
theorem C3_top_sources {packets : List Packet} {w : ℚ} {thr : ℤ} {s : Stats}
    (h : analyzeEvents packets w thr = .ok s) :
    ∀ b ∈ s.bins,
      b.topSources.length ≤ 5 ∧
      b.topSources.Pairwise countGE ∧
      (∀ c : ℕ, (b.topSources.filter (fun p => p.2 == c)).Sublist
        (b.tally.filter (fun p => p.2 == c))) ∧
      (∀ p ∈ b.topSources, p ∈ b.tally) := by
  intro b hb
  obtain ⟨_, _, htop, _, _, _, _⟩ := analyzeEvents_bins_wf h b hb
  rw [htop]
  exact ⟨le_trans (mostCommonN_length_le 3 _) (by norm_num),
    mostCommonN_pairwise 3 _,
    fun c => mostCommonN_filter_count 3 _ c,
    fun p hp => mostCommonN_subset hp⟩

theorem C3_top_sources_witness :
    (Bin.mk 0 1 1 [("aa", 1)] true [("aa", 1)]).topSources.length ≤ 5 ∧
      (Bin.mk 0 1 1 [("aa", 1)] true
        [("aa", 1)]).topSources.Pairwise countGE ∧
      (∀ c : ℕ,
        ((Bin.mk 0 1 1 [("aa", 1)] true [("aa", 1)]).topSources.filter
            (fun p => p.2 == c)).Sublist
          ((Bin.mk 0 1 1 [("aa", 1)] true [("aa", 1)]).tally.filter
            (fun p => p.2 == c))) ∧
      (∀ p ∈ (Bin.mk 0 1 1 [("aa", 1)] true [("aa", 1)]).topSources,
        p ∈ (Bin.mk 0 1 1 [("aa", 1)] true [("aa", 1)]).tally) :=
  @C3_top_sources [deauthPkt 0 (some "aa")] 1 0
    (Stats.mk 0 1 1 0 0
      [Bin.mk 0 1 1 [("aa", 1)] true [("aa", 1)]]
      [Bin.mk 0 1 1 [("aa", 1)] true [("aa", 1)]]
      (some 0) (some 0)) (by with_unfolding_all decide)
    (Bin.mk 0 1 1 [("aa", 1)] true [("aa", 1)])
    (by with_unfolding_all decide)

/-- **C5**: a bucket carries the alert flag iff its count is at least the
threshold; with `threshold ≤ 0` every emitted bucket alerts (legal, not an
error, since every bucket has count ≥ 1); and `attack_detected`
(`bool(stats['alerts'])` in the report) is true iff at least one bucket
alerts. -/
theorem C5_alerts {packets : List Packet} {w : ℚ} {thr : ℤ} {s : Stats}
    (h : analyzeEvents packets w thr = .ok s) :
    (∀ b ∈ s.bins, b.alert = true ↔ thr ≤ (b.count : ℤ)) ∧
      (thr ≤ 0 → ∀ b ∈ s.bins, b.alert = true) ∧
      (attackDetected s = true ↔ ∃ b ∈ s.bins, b.alert = true) := by
  have hwf := analyzeEvents_bins_wf h
  obtain ⟨st, hscan, _, _, _, _, halerts, _, _⟩ := analyzeEvents_ok_cases h
  refine ⟨fun b hb => ?_, fun hthr b hb => ?_, ?_⟩
  · rw [(hwf b hb).2.2.2.1]
    exact decide_eq_true_iff
  · rw [(hwf b hb).2.2.2.1]
    have hc := (hwf b hb).2.2.2.2.2.2
    have h1 : (1 : ℤ) ≤ (b.count : ℤ) := by exact_mod_cast hc
    exact decide_eq_true (by omega)
  · rw [attackDetected, halerts]
    constructor
    · intro hne
      simp only [Bool.not_eq_true', List.isEmpty_eq_false_iff_exists_mem] at hne
      obtain ⟨b, hb⟩ := hne
      have := List.mem_filter.mp hb
      exact ⟨b, this.1, this.2⟩
    · rintro ⟨b, hb, hba⟩
      simp only [Bool.not_eq_true', List.isEmpty_eq_false_iff_exists_mem]
      exact ⟨b, List.mem_filter.mpr ⟨hb, hba⟩⟩

theorem C5_alerts_witness :
    (∀ b ∈ (Stats.mk 0 1 1 0 0
        [Bin.mk 0 1 1 [("aa", 1)] true [("aa", 1)]]
        [Bin.mk 0 1 1 [("aa", 1)] true [("aa", 1)]]
        (some 0) (some 0)).bins, b.alert = true ↔ (0 : ℤ) ≤ (b.count : ℤ)) ∧
      ((0 : ℤ) ≤ 0 → ∀ b ∈ (Stats.mk 0 1 1 0 0
        [Bin.mk 0 1 1 [("aa", 1)] true [("aa", 1)]]
        [Bin.mk 0 1 1 [("aa", 1)] true [("aa", 1)]]
        (some 0) (some 0)).bins, b.alert = true) ∧
      (attackDetected (Stats.mk 0 1 1 0 0
          [Bin.mk 0 1 1 [("aa", 1)] true [("aa", 1)]]
          [Bin.mk 0 1 1 [("aa", 1)] true [("aa", 1)]]
          (some 0) (some 0)) = true ↔
        ∃ b ∈ (Stats.mk 0 1 1 0 0
          [Bin.mk 0 1 1 [("aa", 1)] true [("aa", 1)]]
          [Bin.mk 0 1 1 [("aa", 1)] true [("aa", 1)]]
          (some 0) (some 0)).bins, b.alert = true) :=
  @C5_alerts [deauthPkt 0 (some "aa")] 1 0
    (Stats.mk 0 1 1 0 0
      [Bin.mk 0 1 1 [("aa", 1)] true [("aa", 1)]]
      [Bin.mk 0 1 1 [("aa", 1)] true [("aa", 1)]]
      (some 0) (some 0)) (by with_unfolding_all decide)

/-- **C9**: when every frame counted toward an event total carries a truthy
(present, nonempty) extracted source, `event_times` and `event_srcs` stay
aligned, the zip drops nothing, and the sum of bin counts equals
`total_deauth + total_disassoc + total_eapol`.  (Without the precondition
the two lists diverge and the pairing is unfaithful.) -/
theorem C9_event_totals {packets : List Packet} {w : ℚ} {thr : ℤ} {s : Stats}
    (hsrc : ∀ p ∈ packets, eventFrame p = true → truthy (pktSrc p) = true)
    (h : analyzeEvents packets w thr = .ok s) :
    (s.bins.map (fun b => b.count)).sum
      = s.totalDeauth + s.totalDisassoc + s.totalEapol := by
  obtain ⟨st, hscan, hd, hdis, he, _, _, _, hbins⟩ := analyzeEvents_ok_cases h
  have hbal := scan_balanced hscan hsrc rfl rfl
  rw [hd, hdis, he, ← hbal.2]
  rcases hbins with ⟨hb, hev⟩ | ⟨stt, m, _, hagg, hb⟩
  · rw [hb, hev]
    rfl
  · rw [hb]
    have hperm : ((sortBins (m.map (mkBin stt w thr))).map
          (fun b => b.count)).sum
        = ((m.map (mkBin stt w thr)).map (fun b => b.count)).sum :=
      ((List.perm_insertionSort binLE _).map _).sum_eq
    rw [hperm, List.map_map]
    have hcomp : ((fun b => b.count) ∘ mkBin stt w thr)
        = fun e : ℤ × ℕ × List (String × ℕ) => e.2.1 := rfl
    rw [hcomp]
    have hagg' : aggSum m = (st.eventTimes.zip st.eventSrcs).length := by
      rw [aggregatePairs_aggSum hagg]
      simp [aggSum]
    have hfin : (m.map (fun e : ℤ × ℕ × List (String × ℕ) => e.2.1)).sum
        = aggSum m := rfl
    rw [hfin, hagg', List.length_zip, hbal.1]
    exact min_self _

theorem C9_event_totals_witness :
    ((Stats.mk 6 3 3 0 0
        [Bin.mk 0 2 2 [("aa", 1), ("bb", 1)] true [("aa", 1), ("bb", 1)],
          Bin.mk 6 1 1 [("aa", 1)] true [("aa", 1)]]
        [Bin.mk 0 2 2 [("aa", 1), ("bb", 1)] true [("aa", 1), ("bb", 1)],
          Bin.mk 6 1 1 [("aa", 1)] true [("aa", 1)]]
        (some 0) (some 6)).bins.map (fun b => b.count)).sum
      = (Stats.mk 6 3 3 0 0
        [Bin.mk 0 2 2 [("aa", 1), ("bb", 1)] true [("aa", 1), ("bb", 1)],
          Bin.mk 6 1 1 [("aa", 1)] true [("aa", 1)]]
        [Bin.mk 0 2 2 [("aa", 1), ("bb", 1)] true [("aa", 1), ("bb", 1)],
          Bin.mk 6 1 1 [("aa", 1)] true [("aa", 1)]]
        (some 0) (some 6)).totalDeauth
        + (Stats.mk 6 3 3 0 0
        [Bin.mk 0 2 2 [("aa", 1), ("bb", 1)] true [("aa", 1), ("bb", 1)],
          Bin.mk 6 1 1 [("aa", 1)] true [("aa", 1)]]
        [Bin.mk 0 2 2 [("aa", 1), ("bb", 1)] true [("aa", 1), ("bb", 1)],
          Bin.mk 6 1 1 [("aa", 1)] true [("aa", 1)]]
        (some 0) (some 6)).totalDisassoc
        + (Stats.mk 6 3 3 0 0
        [Bin.mk 0 2 2 [("aa", 1), ("bb", 1)] true [("aa", 1), ("bb", 1)],
          Bin.mk 6 1 1 [("aa", 1)] true [("aa", 1)]]
        [Bin.mk 0 2 2 [("aa", 1), ("bb", 1)] true [("aa", 1), ("bb", 1)],
          Bin.mk 6 1 1 [("aa", 1)] true [("aa", 1)]]
        (some 0) (some 6)).totalEapol :=
  @C9_event_totals
    [deauthPkt 0 (some "aa"), deauthPkt (1/4) (some "bb"),
      deauthPkt 6 (some "aa")] 1 0
    (Stats.mk 6 3 3 0 0
      [Bin.mk 0 2 2 [("aa", 1), ("bb", 1)] true [("aa", 1), ("bb", 1)],
        Bin.mk 6 1 1 [("aa", 1)] true [("aa", 1)]]
      [Bin.mk 0 2 2 [("aa", 1), ("bb", 1)] true [("aa", 1), ("bb", 1)],
        Bin.mk 6 1 1 [("aa", 1)] true [("aa", 1)]]
      (some 0) (some 6)) (by with_unfolding_all decide) (by with_unfolding_all decide)

end WiSec

namespace WiSec

/-- **C1** (counterexample): the claimed formula
`bucket_start = floor(t / w) * w` is false on the code.  With a trace
starting at 1/2 and width 2, the single event at t = 1/2 is put in the
bucket starting at 1/2 (`start_time + int((t - start_time)/w) * w`), while
`floor((1/2)/2) * 2 = 0` — the bucket start does depend on the trace's
start time. -/
theorem C1_counterexample :
    analyzeEvents [deauthPkt (1/2) (some "aa")] 2 0
        = .ok (Stats.mk 0 1 1 0 0
            [Bin.mk (1/2) 1 1 [("aa", 1)] true [("aa", 1)]]
            [Bin.mk (1/2) 1 1 [("aa", 1)] true [("aa", 1)]]
            (some (1/2)) (some (1/2))) ∧
      (⌊(1/2 : ℚ) / 2⌋ : ℚ) * 2 ≠ (1/2 : ℚ) :=
  ⟨by with_unfolding_all decide, by with_unfolding_all decide⟩

/-- **C1** (amended): the bucket start the code computes is
`start_time + trunc((t - start_time)/w) * w`, a function of the trace start
time as well as `t` and `w`; for every width `w > 0` and every event at or
after the trace start (`start_time ≤ t`, which holds in every
chronologically ordered trace) it satisfies
`bucket_start ≤ t < bucket_start + w` and is idempotent. -/
theorem C1_bucketStart_amended {startTime w t : ℚ} (hw : 0 < w)
    (ht : startTime ≤ t) :
    bucketStart startTime w t ≤ t ∧
      t < bucketStart startTime w t + w ∧
      bucketStart startTime w (bucketStart startTime w t)
        = bucketStart startTime w t := by
  have hw' : w ≠ 0 := ne_of_gt hw
  have hq0 : 0 ≤ (t - startTime) / w :=
    div_nonneg (by linarith) (le_of_lt hw)
  have hidx : binIdx startTime w t = ⌊(t - startTime) / w⌋ := by
    rw [binIdx, truncInt_eq_floor hq0]
  have hqw : (t - startTime) / w * w = t - startTime := div_mul_cancel₀ _ hw'
  have hfl : (⌊(t - startTime) / w⌋ : ℚ) ≤ (t - startTime) / w :=
    Int.floor_le _
  have hfu : (t - startTime) / w < (⌊(t - startTime) / w⌋ : ℚ) + 1 :=
    Int.lt_floor_add_one _
  have hle : (⌊(t - startTime) / w⌋ : ℚ) * w ≤ t - startTime := by
    calc (⌊(t - startTime) / w⌋ : ℚ) * w
        ≤ (t - startTime) / w * w :=
          mul_le_mul_of_nonneg_right hfl (le_of_lt hw)
      _ = t - startTime := hqw
  have hlt : t - startTime < ((⌊(t - startTime) / w⌋ : ℚ) + 1) * w := by
    calc t - startTime = (t - startTime) / w * w := hqw.symm
      _ < ((⌊(t - startTime) / w⌋ : ℚ) + 1) * w :=
          mul_lt_mul_of_pos_right hfu hw
  refine ⟨?_, ?_, ?_⟩
  · rw [bucketStart, hidx]
    linarith
  · rw [bucketStart, hidx]
    nlinarith
  · rw [bucketStart, bucketStart, hidx]
    have harg : (startTime + (⌊(t - startTime) / w⌋ : ℚ) * w - startTime) / w
        = ((⌊(t - startTime) / w⌋ : ℤ) : ℚ) := by
      field_simp
    rw [binIdx, harg]
    have hfl0 : (0 : ℚ) ≤ ((⌊(t - startTime) / w⌋ : ℤ) : ℚ) := by
      exact_mod_cast Int.floor_nonneg.mpr hq0
    rw [truncInt_eq_floor hfl0, Int.floor_intCast]

theorem C1_bucketStart_amended_witness :
    (0 : ℚ) < 3 ∧ (1/2 : ℚ) ≤ 2 ∧
      (bucketStart (1/2) 3 2 ≤ 2 ∧
        (2 : ℚ) < bucketStart (1/2) 3 2 + 3 ∧
        bucketStart (1/2) 3 (bucketStart (1/2) 3 2)
          = bucketStart (1/2) 3 2) :=
  ⟨by norm_num, by norm_num,
    @C1_bucketStart_amended (1/2) 3 2 (by norm_num) (by norm_num)⟩

/-- **C4** (counterexample): `bin_width ≤ 0` is not rejected and no
`InvalidConfiguration` error exists.  With width -1 the analysis runs to
completion and produces a summary whose aggregation emitted one bucket. -/
theorem C4_counterexample :
    analyzeEvents [deauthPkt 0 (some "aa")] (-1) 50
      = .ok (Stats.mk 0 1 1 0 0
          [Bin.mk 0 1 1 [("aa", 1)] false [("aa", 1)]]
          [] (some 0) (some 0)) := by with_unfolding_all decide

/-- **C4** (amended): the code never validates `bin_size`: every nonzero
width — negative widths included — yields a summary; width 0 raises
`ZeroDivisionError` inside the aggregation loop at the first zipped event
pair, so it fails exactly when such a pair exists and still succeeds (after
doing the aggregation-free work) when none does. -/
theorem C4_no_width_validation {packets : List Packet} {thr : ℤ}
    {st : ScanState} (hscan : scanPackets initScan packets = .ok st) :
    (∀ w : ℚ, w ≠ 0 → ∃ s, analyzeEvents packets w thr = .ok s) ∧
      (st.eventTimes.zip st.eventSrcs ≠ [] →
        analyzeEvents packets 0 thr = .error .zeroDivision) ∧
      (st.eventTimes.zip st.eventSrcs = [] →
        ∃ s, analyzeEvents packets 0 thr = .ok s) :=
  ⟨fun _ hw => except_isOk_exists (analyzeEvents_isOk_of_ne_zero hscan hw),
    fun hne => analyzeEvents_zero_width_error hscan hne,
    fun hz => except_isOk_exists (analyzeEvents_zero_width_ok hscan hz)⟩

theorem C4_no_width_validation_witness :
    (∀ w : ℚ, w ≠ 0 →
      ∃ s, analyzeEvents [deauthPkt 0 (some "aa")] w 50 = .ok s) ∧
      ((ScanState.mk 1 0 0 [0] ["aa"] (some 0) (some 0)).eventTimes.zip
          (ScanState.mk 1 0 0 [0] ["aa"] (some 0) (some 0)).eventSrcs ≠ [] →
        analyzeEvents [deauthPkt 0 (some "aa")] 0 50
          = .error .zeroDivision) ∧
      ((ScanState.mk 1 0 0 [0] ["aa"] (some 0) (some 0)).eventTimes.zip
          (ScanState.mk 1 0 0 [0] ["aa"] (some 0) (some 0)).eventSrcs = [] →
        ∃ s, analyzeEvents [deauthPkt 0 (some "aa")] 0 50 = .ok s) :=
  @C4_no_width_validation [deauthPkt 0 (some "aa")] 50
    (ScanState.mk 1 0 0 [0] ["aa"] (some 0) (some 0))
    (by with_unfolding_all decide)

/-- **C6** (counterexample): duration is not `max - min` over the frames:
for the out-of-order trace with timestamps 5 then 1 the code returns
`duration = 1 - 5 = -4`, not `5 - 1 = 4` — duration does depend on frame
order. -/
theorem C6_counterexample :
    analyzeEvents [plainPkt 5, plainPkt 1] 1 0
        = .ok (Stats.mk (-4) 2 0 0 0 [] [] (some 5) (some 1)) ∧
      (-4 : ℚ) ≠ 5 - 1 :=
  ⟨by with_unfolding_all decide, by with_unfolding_all decide⟩

/-- **C6** (amended): duration equals the last frame's timestamp minus the
first frame's timestamp (equal to max - min only for chronologically
ordered traces, and possibly negative otherwise); a trace with zero frames
yields `duration = 0` and empty `bins` — a valid degenerate summary, not an
error. -/
theorem C6_duration_amended {packets : List Packet} {w : ℚ} {thr : ℤ}
    {s : Stats} (h : analyzeEvents packets w thr = .ok s) :
    (packets = [] → s.duration = 0 ∧ s.bins = []) ∧
      (∀ p0 pl, packets.head? = some p0 → packets.getLast? = some pl →
        s.duration = effTs pl - effTs p0) := by
  obtain ⟨st, hscan, _, _, _, _, _, hdur, hbins⟩ := analyzeEvents_ok_cases h
  constructor
  · intro hps
    subst hps
    have hst : st = initScan := by
      simp only [scanPackets] at hscan
      injection hscan with h'
      exact h'.symm
    constructor
    · rcases hdur with ⟨_, hd0⟩ | ⟨stt, en, hstt, _, _⟩
      · exact hd0
      · rw [hst] at hstt
        cases hstt
    · rcases hbins with ⟨hb, _⟩ | ⟨stt, m, hstt, _, _⟩
      · exact hb
      · rw [hst] at hstt
        cases hstt
  · intro p0 pl hp0 hpl
    rcases hdur with ⟨hnil, _⟩ | ⟨stt, en, hstt, hen, hd⟩
    · subst hnil
      cases hp0
    · have hhead : ∃ rest, packets = p0 :: rest := by
        cases packets with
        | nil => cases hp0
        | cons q rest =>
          injection hp0 with hp0
          exact ⟨rest, by rw [hp0]⟩
      obtain ⟨rest, hrest⟩ := hhead
      have h1 : st.startTime = some (effTs p0) := by
        rw [hrest] at hscan
        exact scan_startTime_head hscan rfl
      have h2 : st.endTime = some (effTs pl) := scan_endTime_getLast hscan hpl
      rw [hstt] at h1
      rw [hen] at h2
      injection h1 with h1
      injection h2 with h2
      rw [hd, ← h1, ← h2]

theorem C6_duration_amended_witness :
    ([plainPkt 5, plainPkt 1] = [] →
      (Stats.mk (-4) 2 0 0 0 [] [] (some 5) (some 1)).duration = 0 ∧
        (Stats.mk (-4) 2 0 0 0 [] [] (some 5) (some 1)).bins = []) ∧
      (∀ p0 pl, [plainPkt 5, plainPkt 1].head? = some p0 →
        [plainPkt 5, plainPkt 1].getLast? = some pl →
        (Stats.mk (-4) 2 0 0 0 [] [] (some 5) (some 1)).duration
          = effTs pl - effTs p0) :=
  @C6_duration_amended [plainPkt 5, plainPkt 1] 1 0
    (Stats.mk (-4) 2 0 0 0 [] [] (some 5) (some 1))
    (by with_unfolding_all decide)

/-- **C7** (counterexample): a malformed timestamp is not skipped silently:
`float(...)` raises and the whole run fails with a `ValueError` — fatal,
producing no summary, even though a perfectly good deauth frame follows. -/
theorem C7_counterexample :
    analyzeEvents [badTimePkt, deauthPkt 1 (some "bb")] 1 50
      = .error .valueError := by with_unfolding_all decide

/-- **C7** (amended): there is no per-frame skip path.  A frame whose
timestamp `float(...)` rejects aborts the entire analysis with a
`ValueError` (no summary); a frame merely missing its `time` attribute is
processed at timestamp 0.0 and fully counted — the deauth total counts
every matching frame whatever its timestamp field. -/
theorem C7_malformed_fatal {packets : List Packet} {w : ℚ} {thr : ℤ} :
    ((∃ p ∈ packets, p.time = .malformed) →
      analyzeEvents packets w thr = .error .valueError) ∧
      (∀ s, analyzeEvents packets w thr = .ok s →
        s.totalDeauth = (packets.filter isDeauthFrame).length) := by
  constructor
  · intro hex
    unfold analyzeEvents
    rw [scan_error_of_malformed hex initScan]
  · intro s h
    obtain ⟨st, hscan, hd, _⟩ := analyzeEvents_ok_cases h
    rw [hd, scan_totalDeauth hscan]
    simp [initScan]

theorem C7_malformed_fatal_witness :
    analyzeEvents [badTimePkt] 1 50 = .error .valueError ∧
      (Stats.mk 0 1 1 0 0
          [Bin.mk 0 1 1 [("aa:aa:aa:aa:aa:aa", 1)] false
            [("aa:aa:aa:aa:aa:aa", 1)]]
          [] (some 0) (some 0)).totalDeauth
        = ([noTimePkt].filter isDeauthFrame).length :=
  ⟨(@C7_malformed_fatal [badTimePkt] 1 50).1
      ⟨badTimePkt, by with_unfolding_all decide, by with_unfolding_all decide⟩,
    (@C7_malformed_fatal [noTimePkt] 1 50).2
      (Stats.mk 0 1 1 0 0
        [Bin.mk 0 1 1 [("aa:aa:aa:aa:aa:aa", 1)] false
          [("aa:aa:aa:aa:aa:aa", 1)]]
        [] (some 0) (some 0)) (by with_unfolding_all decide)⟩

/-- **C8** (counterexample): one unreadable trace aborts the whole batch:
the run returns only the read error — the first trace's successful analysis
is not surfaced, the third trace is never analyzed, and no per-trace
failure marker or aggregate exists. -/
theorem C8_counterexample :
    analyzeDirectory [Except.ok [deauthPkt 0 (some "aa")],
        Except.error .unreadable, Except.ok [deauthPkt 3 (some "cc")]] 1 50
      = .error (.read .unreadable) := by with_unfolding_all decide

/-- **C8** (amended): `analyze_directory` has no per-trace error handling:
however many traces analyze cleanly before it, the first failing trace
aborts the batch with its error; the traces after it are never touched and
no summary list is produced. -/
theorem C8_batch_aborts {w : ℚ} {thr : ℤ}
    (pre : List (List Packet)) (e : ReadError)
    (post : List (Except ReadError (List Packet)))
    (hpre : ∀ t ∈ pre, (analyzeEvents t w thr).isOk = true) :
    analyzeDirectory (pre.map Except.ok ++ Except.error e :: post) w thr
      = .error (.read e) := by
  induction pre with
  | nil => rfl
  | cons t rest ih =>
    obtain ⟨s, hs⟩ := except_isOk_exists (hpre t (List.mem_cons_self _ _))
    simp only [List.map_cons, List.cons_append, analyzeDirectory, hs,
      List.append_eq]
    rw [ih (fun q hq => hpre q (List.mem_cons_of_mem _ hq))]

theorem C8_batch_aborts_witness :
    analyzeDirectory ([[deauthPkt 0 (some "aa")]].map Except.ok
        ++ Except.error ReadError.unreadable :: [Except.ok []]) 1 50
      = .error (.read .unreadable) :=
  @C8_batch_aborts 1 50 [[deauthPkt 0 (some "aa")]] .unreadable
    [Except.ok []] (by with_unfolding_all decide)

end WiSec
